import Mathlib

/-!
Verification of the file-system backed message history store
(`src/extensions/msteams/src/message-history-store-fs.ts` and
`src/extensions/msteams/src/message-history-store.ts`).

The store is embedded shallowly:

* `StoredMessage`, `MessageHistoryStoreData` mirror the TypeScript types.
* The runtime environment of an operation (`Date.now()`, the configured
  `ttlMs` and `maxMessages`, and the host `Date.parse` function) is an
  explicit `Env` record; `Date.parse` returning `NaN` is modelled as `none`.
* The per-conversation file is a `DiskFile`: missing, unparsable, or a
  parsed JSON record `RawRecord` whose `version` may be anything and whose
  `messages` field may fail to be an array (`none`).
* JavaScript string comparison (`<` and `localeCompare` on ISO timestamp
  strings) is modelled by lexicographic order on `String`; the stable
  `Array.prototype.sort` is modelled by the stable `List.insertionSort`.
* `append` is modelled as a pure state transformer on the disk file that
  also reports how many file writes it performed.
-/

namespace OpenClaw

/-- Kernel-computable decidability for lexicographic string comparison
(the Mathlib instance is defined by well-founded recursion and does not
reduce under `decide`). -/
instance (priority := 2000) strDecLtFast : DecidableRel (fun a b : String => a < b) :=
  fun a b => decidable_of_iff (a.toList < b.toList) String.lt_iff_toList_lt.symm

/-- Kernel-computable decidability for lexicographic string order. -/
instance (priority := 2000) strDecLeFast : DecidableRel (fun a b : String => a ≤ b) :=
  fun a b => decidable_of_iff (a.toList ≤ b.toList) String.le_iff_toList_le.symm

/-- Optional attachment metadata carried by a stored message
(`StoredMessage.attachments` entries in `message-history-store.ts`). -/
structure Attachment where
  contentType : Option String
  contentUrl : Option String
  name : Option String
  thumbnailUrl : Option String
deriving DecidableEq, Repr

/-- One chat message as persisted by the store (`StoredMessage` in
`message-history-store.ts`). -/
structure StoredMessage where
  id : String
  «from» : String
  body : String
  createdDateTime : String
  messageType : String
  attachments : Option (List Attachment)
deriving DecidableEq, Repr

/-- Comparison key used by the ordering repair: ascending
`createdDateTime`, compared as strings (the TypeScript code uses
`localeCompare`, which on ISO-8601 timestamps is lexicographic order). -/
def tsLe (a b : StoredMessage) : Prop :=
  a.createdDateTime ≤ b.createdDateTime

instance : DecidableRel tsLe := fun a b =>
  inferInstanceAs (Decidable (a.createdDateTime ≤ b.createdDateTime))

instance : IsTotal StoredMessage tsLe :=
  ⟨fun a b => le_total a.createdDateTime b.createdDateTime⟩

instance : IsTrans StoredMessage tsLe :=
  ⟨fun _ _ _ hab hbc => le_trans hab hbc⟩

/-- Runtime environment of one store operation: the constructor-time
configuration (`ttlMs`, `maxMessages`), the value of `Date.now()` at the
time of the call, and the host `Date.parse` function (`none` models
`NaN`, i.e. an unparsable timestamp). -/
structure Env where
  ttlMs : Int
  maxMessages : Nat
  now : Int
  dateParse : String → Option Int

/-- The freshness test of `prune`: `Number.isFinite(ts) && ts > cutoff`
with `cutoff = Date.now() - ttlMs`. -/
def freshB (env : Env) (m : StoredMessage) : Bool :=
  match env.dateParse m.createdDateTime with
  | some ts => decide (env.now - env.ttlMs < ts)
  | none => false

/-- The `prune` helper of `createMessageHistoryStoreFs`: age filter, then
capacity cap keeping the last `maxMessages` entries
(`fresh.slice(fresh.length - maxMessages)`). -/
def prune (env : Env) (messages : List StoredMessage) : List StoredMessage :=
  let fresh := messages.filter (freshB env)
  if fresh.length > env.maxMessages then fresh.drop (fresh.length - env.maxMessages)
  else fresh

/-- The full re-sort performed by the ordering repair:
`store.messages.sort((a, b) => a.createdDateTime.localeCompare(b.createdDateTime))`.
`Array.prototype.sort` is a stable sort, modelled by the stable
`List.insertionSort`. -/
def sortByCreated (l : List StoredMessage) : List StoredMessage :=
  List.insertionSort tsLe l

/-- The push plus ordering-repair step inside `append`: push the message,
then compare it against the previously last element (`messages.at(-2)`
after the push) and re-sort the whole list if the new timestamp sorts
strictly before that element's. -/
def orderRepair (messages : List StoredMessage) (message : StoredMessage) :
    List StoredMessage :=
  let pushed := messages ++ [message]
  match messages.getLast? with
  | some last =>
      if message.createdDateTime < last.createdDateTime then sortByCreated pushed
      else pushed
  | none => pushed

/-- The list-level effect of a non-deduplicated `append`: push, ordering
repair, then retention pruning. -/
def appendCore (env : Env) (messages : List StoredMessage) (message : StoredMessage) :
    List StoredMessage :=
  prune env (orderRepair messages message)

/-- A parsed on-disk record before validation: `version` may be any
number and `messages` may fail to be an array (`none`). -/
structure RawRecord where
  version : Int
  conversationId : String
  messages : Option (List StoredMessage)
deriving DecidableEq, Repr

/-- State of one conversation's backing file: absent, present but not
parsable as JSON, or a parsed record. -/
inductive DiskFile where
  | missing
  | malformed
  | file (record : RawRecord)
deriving DecidableEq, Repr

/-- A validated `MessageHistoryStoreData` record. -/
structure StoreData where
  version : Int
  conversationId : String
  messages : List StoredMessage
deriving DecidableEq, Repr

/-- `emptyStore` from the source: a fresh record stamped with the
requested conversation id. -/
def emptyStore (conversationId : String) : StoreData :=
  ⟨1, conversationId, []⟩

/-- Modelled from the spec: the `readJsonFile` utility of `store-fs.ts`
is not part of the sources; per the spec (sections 4.2 and 5) it returns
the parsed record, or the supplied fallback value on a missing file or a
parse failure, and never throws in those cases. -/
def readJsonFileModel (d : DiskFile) (fallback : StoreData) : RawRecord :=
  match d with
  | .missing => ⟨fallback.version, fallback.conversationId, some fallback.messages⟩
  | .malformed => ⟨fallback.version, fallback.conversationId, some fallback.messages⟩
  | .file r => r

/-- `readStore` from the source: load with `emptyStore` fallback, then
discard the record when `value.version !== 1` or `value.messages` is not
an array. -/
def readStore (d : DiskFile) (conversationId : String) : StoreData :=
  let value := readJsonFileModel d (emptyStore conversationId)
  if value.version = 1 then
    match value.messages with
    | some ms => ⟨1, value.conversationId, ms⟩
    | none => emptyStore conversationId
  else emptyStore conversationId

/-- The dedup test of `append`:
`message.id && store.messages.some((m) => m.id === message.id)`
(an empty `id` is falsy in JavaScript). -/
def dedupHit (messages : List StoredMessage) (message : StoredMessage) : Bool :=
  (message.id != "") && messages.any (fun m => m.id == message.id)

/-- `append` as a state transformer on the conversation's file, paired
with the number of file writes performed (`writeJsonFile` calls). The
dedup branch returns without writing; otherwise the pushed, repaired and
pruned list is written back with `version: 1` and the loaded record's
conversation id. -/
def appendFs (env : Env) (disk : DiskFile) (conversationId : String)
    (message : StoredMessage) : DiskFile × Nat :=
  let store := readStore disk conversationId
  if dedupHit store.messages message then (disk, 0)
  else
    let msgs := appendCore env store.messages message
    (.file ⟨1, store.conversationId, some msgs⟩, 1)

/-- Options accepted by `read` (`ReadOpts` in `message-history-store.ts`).
The `limit` field is a JavaScript number, modelled as an integer. -/
structure ReadOpts where
  limit : Option Int
  cursor : Option String
  before : Option String
  after : Option String
deriving DecidableEq, Repr

/-- Result of `read` (`ReadResult` in `message-history-store.ts`). -/
structure ReadResult where
  messages : List StoredMessage
  nextCursor : Option String
deriving DecidableEq, Repr

/-- The limit normalization of `read`:
`Math.min(Math.max(1, opts?.limit ?? DEFAULT_LIMIT), MAX_LIMIT)` with
`DEFAULT_LIMIT = 20` and `MAX_LIMIT = 50`. -/
def clampLimit (limit : Option Int) : Int :=
  min (max 1 (limit.getD 20)) 50

/-- Decimal value of a digit run, most significant first. -/
def jsDigitsVal (ds : List Char) : Nat :=
  ds.foldl (fun a c => a * 10 + (c.toNat - 48)) 0

/-- Sign-and-digits phase of `Number.parseInt(s, 10)` after whitespace
stripping: an optional sign, then the maximal run of decimal digits; no
digits means `NaN`, modelled as `none`. -/
def jsParseIntCore (cs : List Char) : Option Int :=
  let cs2 := if cs.head? = some '-' ∨ cs.head? = some '+' then cs.tail else cs
  let ds := cs2.takeWhile Char.isDigit
  if ds = [] then none
  else some (if cs.head? = some '-' then -(jsDigitsVal ds : Int) else (jsDigitsVal ds : Int))

/-- Model of JavaScript `Number.parseInt(s, 10)`: skip leading
whitespace, then parse an optionally signed decimal integer.
(JavaScript numbers lose precision on huge inputs; the model is exact.) -/
def jsParseInt (s : String) : Option Int :=
  jsParseIntCore (s.data.dropWhile Char.isWhitespace)

/-- `parseCursor` from the source: a falsy (absent or empty) cursor is
offset 0; otherwise `parseInt` and keep the value only when it is a
finite non-negative number. -/
def parseCursor (cursor : Option String) : Nat :=
  match cursor with
  | none => 0
  | some s =>
      if s = "" then 0
      else
        match jsParseInt s with
        | some n => if 0 ≤ n then n.toNat else 0
        | none => 0

/-- The `before` and `after` range filters of `read`. JavaScript tests
the options for truthiness, so an empty-string bound is ignored. -/
def rangeFiltered (messages : List StoredMessage) (opts : ReadOpts) :
    List StoredMessage :=
  let f1 :=
    match opts.after with
    | some a => if a = "" then messages else messages.filter (fun m => a < m.createdDateTime)
    | none => messages
  match opts.before with
  | some b => if b = "" then f1 else f1.filter (fun m => m.createdDateTime < b)
  | none => f1

/-- The query path of `read` on an already-loaded message list: filter,
reverse to newest-first, clamp the limit, parse the cursor, slice the
page, and emit `nextCursor` only when more remain. -/
def readCore (messages : List StoredMessage) (opts : ReadOpts) : ReadResult :=
  let allMessages := (rangeFiltered messages opts).reverse
  let limit := clampLimit opts.limit
  let offset := parseCursor opts.cursor
  let page := (allMessages.drop offset).take limit.toNat
  if (offset : Int) + limit < allMessages.length then
    ⟨page, some (toString ((offset : Int) + limit))⟩
  else ⟨page, none⟩

/-- `read` from the source: load (with recovery) and run the query path. -/
def readFs (disk : DiskFile) (conversationId : String) (opts : ReadOpts) : ReadResult :=
  readCore (readStore disk conversationId).messages opts

/-- One directory entry seen by `readDefault`: the file name and the
result of `fs.stat` on it (`none` models a thrown stat error). -/
structure DirEntry where
  name : String
  mtime : Option Int
deriving DecidableEq, Repr

/-- The store directory as seen by `readDefault`: the result of
`fs.readdir` (`none` models a thrown listing error), the contents of
each file by name, and the conversation-id fingerprint function
(`hashConversationId`, abstracted since it is a SHA-256 prefix). -/
structure DirState where
  listing : Option (List DirEntry)
  content : String → DiskFile
  hashFn : String → String

/-- `resolveFilePath`: the deterministic file name derived from a
conversation id. -/
def filenameFor (dir : DirState) (conversationId : String) : String :=
  "msteams-history-" ++ dir.hashFn conversationId ++ ".json"

/-- `read` keyed by conversation id against the directory: reads the
file the id's fingerprint resolves to. -/
def readFsByCid (dir : DirState) (conversationId : String) (opts : ReadOpts) : ReadResult :=
  readFs (dir.content (filenameFor dir conversationId)) conversationId opts

/-- The history-file name filter of `readDefault`:
`f.startsWith("msteams-history-") && f.endsWith(".json")` —
`startsWith`/`endsWith` expressed on the underlying character lists. -/
def isHistoryName (n : String) : Bool :=
  List.isPrefixOf "msteams-history-".data n.data &&
  List.isSuffixOf ".json".data n.data

/-- The most-recently-modified selection loop of `readDefault`, starting
from `best = historyFiles[0]` and `bestMtime = 0` and updating on a
strictly greater `stat.mtimeMs`; a failed stat throws, which the caller
turns into an empty result (`none`). -/
def pickBestLoop (entries : List DirEntry) (best : String) (bestMtime : Int) :
    Option String :=
  match entries with
  | [] => some best
  | e :: rest =>
      match e.mtime with
      | none => none
      | some m =>
          if m > bestMtime then pickBestLoop rest e.name m
          else pickBestLoop rest best bestMtime

/-- The empty `ReadResult` returned on every recovery path of
`readDefault`. -/
def emptyResult : ReadResult :=
  ⟨[], none⟩

/-- `readDefault` from the source: list the directory, keep history
files, pick the most recently modified one, validate its record, and
delegate to `read` with the embedded conversation id and the original
options; every failure path degrades to an empty result. -/
def readDefaultFs (dir : DirState) (opts : ReadOpts) : ReadResult :=
  match dir.listing with
  | none => emptyResult
  | some files =>
      let historyFiles := files.filter (fun f => isHistoryName f.name)
      match historyFiles with
      | [] => emptyResult
      | h0 :: _ =>
          match pickBestLoop historyFiles h0.name 0 with
          | none => emptyResult
          | some best =>
              let value := readJsonFileModel (dir.content best) (emptyStore "")
              if value.version = 1 then
                match value.messages with
                | some _ => readFsByCid dir value.conversationId opts
                | none => emptyResult
              else emptyResult

/-! Spec-modelled retention combinators, used to state that `prune`
realizes the two-step policy of spec section 4.3. -/

/-- Modelled from the spec: step 1 of the retention policy drops every
message whose `createdDateTime` fails to parse as a valid timestamp, or
whose parsed time is at or before `now − ttl`. -/
def specAgeFilter (env : Env) (messages : List StoredMessage) : List StoredMessage :=
  messages.filter fun m =>
    match env.dateParse m.createdDateTime with
    | none => false
    | some ts => !decide (ts ≤ env.now - env.ttlMs)

/-- Modelled from the spec: step 2 of the retention policy keeps only the
last `maxCount` entries in current order when more than `maxCount`
remain. -/
def specLastN (maxCount : Nat) (l : List StoredMessage) : List StoredMessage :=
  if maxCount < l.length then (l.reverse.take maxCount).reverse else l

/-! Helper lemmas. -/

theorem prune_def (env : Env) (l : List StoredMessage) :
    prune env l =
      if (l.filter (freshB env)).length > env.maxMessages then
        (l.filter (freshB env)).drop ((l.filter (freshB env)).length - env.maxMessages)
      else l.filter (freshB env) := rfl

theorem appendFs_def (env : Env) (d : DiskFile) (cid : String) (c : StoredMessage) :
    appendFs env d cid c =
      if dedupHit (readStore d cid).messages c then (d, 0)
      else
        (.file ⟨1, (readStore d cid).conversationId,
          some (appendCore env (readStore d cid).messages c)⟩, 1) := rfl

theorem freshB_eq_specPred (env : Env) (m : StoredMessage) :
    freshB env m =
      match env.dateParse m.createdDateTime with
      | none => false
      | some ts => !decide (ts ≤ env.now - env.ttlMs) := by
  unfold freshB
  cases env.dateParse m.createdDateTime with
  | none => rfl
  | some ts =>
      simp only [← decide_not, decide_eq_decide]
      exact not_le.symm

theorem prune_length_le (env : Env) (l : List StoredMessage) :
    (prune env l).length ≤ env.maxMessages := by
  rw [prune_def]
  split
  · simp only [List.length_drop]
    omega
  · omega

theorem appendCore_length_le (env : Env) (l : List StoredMessage) (c : StoredMessage) :
    (appendCore env l c).length ≤ env.maxMessages :=
  prune_length_le env (orderRepair l c)

theorem readStore_file_valid (cid c : String) (ms : List StoredMessage) :
    readStore (.file ⟨1, c, some ms⟩) cid = ⟨1, c, ms⟩ := by
  simp [readStore, readJsonFileModel]

theorem clampLimit_pos (l : Option Int) : 1 ≤ clampLimit l :=
  le_min (le_max_left 1 _) (by norm_num)

theorem clampLimit_le_max (l : Option Int) : clampLimit l ≤ 50 :=
  min_le_right _ _

theorem rangeFiltered_nil (opts : ReadOpts) : rangeFiltered [] opts = [] := by
  unfold rangeFiltered
  cases opts.after <;> cases opts.before <;> simp

theorem readCore_nil (opts : ReadOpts) : readCore [] opts = ⟨[], none⟩ := by
  unfold readCore
  rw [rangeFiltered_nil]
  have h1 := clampLimit_pos opts.limit
  have h0 : (0 : Int) ≤ (parseCursor opts.cursor : Int) := Int.natCast_nonneg _
  simp only [List.reverse_nil, List.drop_nil, List.take_nil, List.length_nil]
  rw [if_neg (by omega)]

/-- C3: the retention policy applies the age filter first and the
capacity cap (keep the last `maxCount` in current order) second: `prune`
equals the spec's two-step composition. -/
theorem prune_eq_age_then_capacity (env : Env) (messages : List StoredMessage) :
    prune env messages = specLastN env.maxMessages (specAgeFilter env messages) := by
  rw [prune_def]
  unfold specLastN specAgeFilter
  rw [List.filter_congr fun m _ => freshB_eq_specPred env m]
  set fresh := messages.filter fun m =>
    match env.dateParse m.createdDateTime with
    | none => false
    | some ts => !decide (ts ≤ env.now - env.ttlMs)
  rw [← List.rtake_eq_reverse_take_reverse]
  unfold List.rtake
  simp only [gt_iff_lt]

/-- C4: the stored list never exceeds the configured capacity after a
completed append: the non-dedup path always writes a list of length at
most `maxMessages`, and appends preserve the capacity invariant of the
persisted record. -/
theorem append_capacity_invariant :
    (∀ (env : Env) (l : List StoredMessage) (c : StoredMessage),
      (appendCore env l c).length ≤ env.maxMessages) ∧
    ∀ (env : Env) (d : DiskFile) (cid : String) (c : StoredMessage),
      (readStore d cid).messages.length ≤ env.maxMessages →
      (readStore (appendFs env d cid c).1 cid).messages.length ≤ env.maxMessages := by
  refine ⟨appendCore_length_le, fun env d cid c h => ?_⟩
  rw [appendFs_def]
  split
  · exact h
  · rw [readStore_file_valid]
    exact appendCore_length_le env _ c

theorem append_capacity_invariant_witness :
    (readStore .missing "conv" ).messages.length ≤ (3 : Nat) ∧
    (readStore (appendFs ⟨10, 3, 10, fun _ => some 5⟩ .missing "conv"
        ⟨"a", "u", "hi", "t", "m", none⟩).1 "conv").messages.length ≤ 3 :=
  ⟨by decide,
    append_capacity_invariant.2 ⟨10, 3, 10, fun _ => some 5⟩ .missing "conv"
      ⟨"a", "u", "hi", "t", "m", none⟩ (by decide)⟩

/-- C7: loading a record that is missing, unparsable, has a version
other than 1, or whose messages field is not a sequence yields a fresh
empty record stamped with the requested conversation id (the model is a
total function, so none of these cases throws), and reading a
nonexistent conversation returns an empty page with no cursor. -/
theorem readStore_recovery :
    (∀ cid : String, readStore .missing cid = emptyStore cid) ∧
    (∀ cid : String, readStore .malformed cid = emptyStore cid) ∧
    (∀ (r : RawRecord) (cid : String), r.version ≠ 1 →
      readStore (.file r) cid = emptyStore cid) ∧
    (∀ (r : RawRecord) (cid : String), r.messages = none →
      readStore (.file r) cid = emptyStore cid) ∧
    ∀ (cid : String) (opts : ReadOpts), readFs .missing cid opts = ⟨[], none⟩ := by
  refine ⟨fun cid => by simp [readStore, readJsonFileModel, emptyStore],
    fun cid => by simp [readStore, readJsonFileModel, emptyStore],
    fun r cid h => by simp [readStore, readJsonFileModel, h],
    fun r cid h => by simp [readStore, readJsonFileModel, h],
    fun cid opts => ?_⟩
  unfold readFs
  have : (readStore .missing cid).messages = [] := by
    simp [readStore, readJsonFileModel, emptyStore]
  rw [this, readCore_nil]

theorem readStore_recovery_witness :
    (⟨0, "x", none⟩ : RawRecord).version ≠ 1 ∧
    readStore (.file ⟨0, "x", none⟩) "cid" = emptyStore "cid" :=
  ⟨by decide, readStore_recovery.2.2.1 ⟨0, "x", none⟩ "cid" (by decide)⟩

/-- C9: a duplicate append (non-empty id already present) performs no
file write and leaves the persisted record entirely unchanged, and every
append performs at most one file write. -/
theorem append_duplicate_frame :
    (∀ (env : Env) (d : DiskFile) (cid : String) (c : StoredMessage),
      c.id ≠ "" →
      (readStore d cid).messages.any (fun m => m.id == c.id) = true →
      appendFs env d cid c = (d, 0)) ∧
    ∀ (env : Env) (d : DiskFile) (cid : String) (c : StoredMessage),
      (appendFs env d cid c).2 ≤ 1 := by
  constructor
  · intro env d cid c hid hmem
    have hd : dedupHit (readStore d cid).messages c = true := by
      simp [dedupHit, hmem, bne_iff_ne, hid]
    simp [appendFs_def, hd]
  · intro env d cid c
    rw [appendFs_def]
    split <;> simp

theorem append_duplicate_frame_witness :
    ("a" : String) ≠ "" ∧
    (readStore (.file ⟨1, "conv", some [⟨"a", "u", "hi", "t", "m", none⟩]⟩) "conv").messages.any
      (fun m => m.id == "a") = true ∧
    appendFs ⟨10, 3, 10, fun _ => some 5⟩
      (.file ⟨1, "conv", some [⟨"a", "u", "hi", "t", "m", none⟩]⟩) "conv"
      ⟨"a", "v", "yo", "t2", "m", none⟩ =
      (.file ⟨1, "conv", some [⟨"a", "u", "hi", "t", "m", none⟩]⟩, 0) :=
  ⟨by decide, by decide,
    append_duplicate_frame.1 ⟨10, 3, 10, fun _ => some 5⟩
      (.file ⟨1, "conv", some [⟨"a", "u", "hi", "t", "m", none⟩]⟩) "conv"
      ⟨"a", "v", "yo", "t2", "m", none⟩ (by decide) (by decide)⟩

/-- C10: a message with an empty id always bypasses deduplication — the
append writes the pushed, repaired and pruned list no matter what is
already stored — so appending the same empty-id message twice to a fresh
conversation stores two copies. -/
theorem append_empty_id_bypasses_dedup :
    (∀ (env : Env) (d : DiskFile) (cid : String) (c : StoredMessage),
      c.id = "" →
      appendFs env d cid c =
        (.file ⟨1, (readStore d cid).conversationId,
          some (appendCore env (readStore d cid).messages c)⟩, 1)) ∧
    ∀ (env : Env) (cid : String) (c : StoredMessage),
      c.id = "" → freshB env c = true → 2 ≤ env.maxMessages →
      readStore (appendFs env (appendFs env .missing cid c).1 cid c).1 cid =
        ⟨1, cid, [c, c]⟩ := by
  have hbypass : ∀ (env : Env) (d : DiskFile) (cid : String) (c : StoredMessage),
      c.id = "" →
      appendFs env d cid c =
        (.file ⟨1, (readStore d cid).conversationId,
          some (appendCore env (readStore d cid).messages c)⟩, 1) := by
    intro env d cid c hid
    have hd : dedupHit (readStore d cid).messages c = false := by
      simp [dedupHit, hid]
    simp [appendFs_def, hd]
  refine ⟨hbypass, fun env cid c hid hfresh hmax => ?_⟩
  have hempty : readStore .missing cid = emptyStore cid := by
    simp [readStore, readJsonFileModel, emptyStore]
  have hcap1 : ¬ (([c] : List StoredMessage).length > env.maxMessages) := by
    simp only [List.length_cons, List.length_nil, gt_iff_lt]
    omega
  have hfil1 : ([c] : List StoredMessage).filter (freshB env) = [c] := by
    simp [hfresh]
  have h1 : appendCore env [] c = [c] := by
    unfold appendCore
    rw [show orderRepair [] c = [c] from rfl, prune_def, hfil1, if_neg hcap1]
  have hor2 : orderRepair [c] c = [c, c] := by
    unfold orderRepair
    simp [lt_irrefl]
  have hcap2 : ¬ (([c, c] : List StoredMessage).length > env.maxMessages) := by
    simp only [List.length_cons, List.length_nil, gt_iff_lt]
    omega
  have hfil2 : ([c, c] : List StoredMessage).filter (freshB env) = [c, c] := by
    simp [hfresh]
  have h2 : appendCore env [c] c = [c, c] := by
    unfold appendCore
    rw [hor2, prune_def, hfil2, if_neg hcap2]
  rw [hbypass env .missing cid c hid, hempty]
  show readStore (appendFs env (.file ⟨1, cid, some (appendCore env [] c)⟩) cid c).1 cid = _
  rw [h1, hbypass env _ cid c hid, readStore_file_valid]
  rw [readStore_file_valid, h2]

theorem append_empty_id_bypasses_dedup_witness :
    ("" : String) = "" ∧
    freshB ⟨10, 3, 10, fun _ => some 5⟩ ⟨"", "u", "hi", "t", "m", none⟩ = true ∧
    2 ≤ (3 : Nat) ∧
    readStore (appendFs ⟨10, 3, 10, fun _ => some 5⟩
      (appendFs ⟨10, 3, 10, fun _ => some 5⟩ .missing "conv"
        ⟨"", "u", "hi", "t", "m", none⟩).1 "conv"
      ⟨"", "u", "hi", "t", "m", none⟩).1 "conv" =
      ⟨1, "conv", [⟨"", "u", "hi", "t", "m", none⟩, ⟨"", "u", "hi", "t", "m", none⟩]⟩ :=
  ⟨rfl, by decide, by decide,
    append_empty_id_bypasses_dedup.2 ⟨10, 3, 10, fun _ => some 5⟩ "conv"
      ⟨"", "u", "hi", "t", "m", none⟩ rfl (by decide) (by decide)⟩

theorem readCore_def (messages : List StoredMessage) (opts : ReadOpts) :
    readCore messages opts =
      if ((parseCursor opts.cursor : Int) + clampLimit opts.limit <
          ((rangeFiltered messages opts).reverse.length : Int)) then
        ⟨((rangeFiltered messages opts).reverse.drop (parseCursor opts.cursor)).take
            (clampLimit opts.limit).toNat,
          some (toString ((parseCursor opts.cursor : Int) + clampLimit opts.limit))⟩
      else
        ⟨((rangeFiltered messages opts).reverse.drop (parseCursor opts.cursor)).take
            (clampLimit opts.limit).toNat, none⟩ := rfl

/-- C6: `read` clamps the limit to [1, 50] with default 20, treats an
invalid (unparsable or negative) or absent cursor as offset 0, and an
out-of-range cursor yields an empty page with no `nextCursor` (the model
is total, so no error is raised). -/
theorem read_normalization :
    (∀ l : Option Int, 1 ≤ clampLimit l ∧ clampLimit l ≤ 50) ∧
    clampLimit none = 20 ∧
    parseCursor none = 0 ∧
    (∀ s : String, jsParseInt s = none → parseCursor (some s) = 0) ∧
    (∀ (s : String) (n : Int), jsParseInt s = some n → n < 0 → parseCursor (some s) = 0) ∧
    ∀ (messages : List StoredMessage) (opts : ReadOpts),
      (rangeFiltered messages opts).length ≤ parseCursor opts.cursor →
      readCore messages opts = ⟨[], none⟩ := by
  refine ⟨fun l => ⟨clampLimit_pos l, clampLimit_le_max l⟩, by decide, rfl,
    fun s h => ?_, fun s n h hn => ?_, fun messages opts h => ?_⟩
  · by_cases hs : s = ""
    · simp [parseCursor, hs]
    · simp [parseCursor, hs, h]
  · by_cases hs : s = ""
    · simp [parseCursor, hs]
    · simp only [parseCursor, hs, if_false, h]
      rw [if_neg (by omega)]
  · rw [readCore_def]
    have hlen : (rangeFiltered messages opts).reverse.length =
        (rangeFiltered messages opts).length := List.length_reverse _
    have hpos := clampLimit_pos opts.limit
    rw [if_neg (by rw [hlen]; omega)]
    have hdrop : (rangeFiltered messages opts).reverse.drop (parseCursor opts.cursor) = [] :=
      List.drop_eq_nil_of_le (by omega)
    rw [hdrop, List.take_nil]

theorem read_normalization_witness :
    jsParseInt "xyz" = none ∧ parseCursor (some "xyz") = 0 ∧
    jsParseInt "-3" = some (-3) ∧ (-3 : Int) < 0 ∧ parseCursor (some "-3") = 0 ∧
    (rangeFiltered [⟨"a", "u", "hi", "t", "m", none⟩] ⟨none, some "7", none, none⟩).length ≤
      parseCursor (some "7") ∧
    readCore [⟨"a", "u", "hi", "t", "m", none⟩] ⟨none, some "7", none, none⟩ = ⟨[], none⟩ :=
  ⟨by decide, read_normalization.2.2.2.1 "xyz" (by decide),
    by decide, by decide, read_normalization.2.2.2.2.1 "-3" (-3) (by decide) (by decide),
    by decide,
    read_normalization.2.2.2.2.2 [⟨"a", "u", "hi", "t", "m", none⟩]
      ⟨none, some "7", none, none⟩ (by decide)⟩

theorem readStore_missing (cid : String) : readStore .missing cid = emptyStore cid := by
  simp [readStore, readJsonFileModel, emptyStore]

theorem orderRepair_nil (c : StoredMessage) : orderRepair [] c = [c] := rfl

theorem orderRepair_no_trigger {l : List StoredMessage} {c last : StoredMessage}
    (hl : l.getLast? = some last) (h : ¬ c.createdDateTime < last.createdDateTime) :
    orderRepair l c = l ++ [c] := by
  unfold orderRepair
  rw [hl]
  exact if_neg h

theorem orderRepair_trigger {l : List StoredMessage} {c last : StoredMessage}
    (hl : l.getLast? = some last) (h : c.createdDateTime < last.createdDateTime) :
    orderRepair l c = sortByCreated (l ++ [c]) := by
  unfold orderRepair
  rw [hl]
  exact if_pos h

theorem prune_of_fresh {env : Env} {l : List StoredMessage}
    (h : ∀ m ∈ l, freshB env m = true) (hlen : l.length ≤ env.maxMessages) :
    prune env l = l := by
  rw [prune_def, List.filter_eq_self.mpr h, if_neg (by omega)]

/-- C2: the ordering repair compares the new message only against the
previously last element — a strictly smaller timestamp triggers a full
ascending re-sort, anything else (or an empty list) leaves the plain
push — and appending timestamps [t1, t3, t2] with t1 ≤ t2 < t3 to a
fresh conversation stores them in order [t1, t2, t3]. -/
theorem order_repair_behavior :
    (∀ (messages : List StoredMessage) (c last : StoredMessage),
      messages.getLast? = some last →
      (c.createdDateTime < last.createdDateTime →
        orderRepair messages c = sortByCreated (messages ++ [c])) ∧
      (¬ c.createdDateTime < last.createdDateTime →
        orderRepair messages c = messages ++ [c])) ∧
    (∀ c : StoredMessage, orderRepair [] c = [c]) ∧
    ∀ (env : Env) (cid : String) (m1 m2 m3 : StoredMessage),
      m1.createdDateTime ≤ m3.createdDateTime →
      m3.createdDateTime < m2.createdDateTime →
      freshB env m1 = true → freshB env m2 = true → freshB env m3 = true →
      3 ≤ env.maxMessages →
      m2.id ≠ m1.id → m3.id ≠ m1.id → m3.id ≠ m2.id →
      (readStore
        (appendFs env (appendFs env (appendFs env .missing cid m1).1 cid m2).1 cid m3).1
        cid).messages = [m1, m3, m2] := by
  refine ⟨fun messages c last hl =>
      ⟨fun h => orderRepair_trigger hl h, fun h => orderRepair_no_trigger hl h⟩,
    orderRepair_nil,
    fun env cid m1 m2 m3 h13 h32 hf1 hf2 hf3 hmax hid21 hid31 hid32 => ?_⟩
  have hfresh1 : ∀ m ∈ ([m1] : List StoredMessage), freshB env m = true := by
    simp [hf1]
  have hfresh2 : ∀ m ∈ ([m1, m2] : List StoredMessage), freshB env m = true := by
    simp [hf1, hf2]
  have hfresh3 : ∀ m ∈ ([m1, m3, m2] : List StoredMessage), freshB env m = true := by
    simp [hf1, hf2, hf3]
  have e1 : appendFs env .missing cid m1 = (.file ⟨1, cid, some [m1]⟩, 1) := by
    rw [appendFs_def, readStore_missing]
    have hd : dedupHit (emptyStore cid).messages m1 = false := by
      simp [dedupHit, emptyStore]
    rw [if_neg (by simp [hd])]
    have : appendCore env (emptyStore cid).messages m1 = [m1] := by
      show appendCore env [] m1 = [m1]
      unfold appendCore
      rw [orderRepair_nil, prune_of_fresh hfresh1 (by simp; omega)]
    rw [this]
    rfl
  have e2 : appendFs env (.file ⟨1, cid, some [m1]⟩) cid m2 =
      (.file ⟨1, cid, some [m1, m2]⟩, 1) := by
    rw [appendFs_def, readStore_file_valid]
    have hd : dedupHit [m1] m2 = false := by
      simp [dedupHit, Ne.symm hid21]
    rw [if_neg (by simp [hd])]
    have hrep : orderRepair [m1] m2 = [m1, m2] :=
      orderRepair_no_trigger (by simp) (not_lt.mpr (le_of_lt (lt_of_le_of_lt h13 h32)))
    have : appendCore env [m1] m2 = [m1, m2] := by
      unfold appendCore
      rw [hrep, prune_of_fresh hfresh2 (by simp; omega)]
    rw [this]
  have hnle23 : ¬ tsLe m2 m3 := not_le.mpr h32
  have hle13 : tsLe m1 m3 := h13
  have hsort : sortByCreated [m1, m2, m3] = [m1, m3, m2] := by
    unfold sortByCreated
    simp only [List.insertionSort, List.orderedInsert]
    rw [if_neg hnle23]
    simp only [List.orderedInsert]
    rw [if_pos hle13]
  have e3 : appendFs env (.file ⟨1, cid, some [m1, m2]⟩) cid m3 =
      (.file ⟨1, cid, some [m1, m3, m2]⟩, 1) := by
    rw [appendFs_def, readStore_file_valid]
    have hd : dedupHit [m1, m2] m3 = false := by
      simp [dedupHit, Ne.symm hid31, Ne.symm hid32]
    rw [if_neg (by simp [hd])]
    have hrep : orderRepair [m1, m2] m3 = sortByCreated [m1, m2, m3] :=
      orderRepair_trigger (by simp) h32
    have : appendCore env [m1, m2] m3 = [m1, m3, m2] := by
      unfold appendCore
      rw [hrep, hsort, prune_of_fresh hfresh3 (by simp; omega)]
    rw [this]
  rw [e1, e2, e3, readStore_file_valid]

theorem order_repair_behavior_witness :
    (("2024-01-01" : String) ≤ "2024-01-02" ∧ ("2024-01-02" : String) < "2024-01-03" ∧
      freshB ⟨10, 5, 10, fun _ => some 5⟩ ⟨"a", "u", "x", "2024-01-01", "m", none⟩ = true ∧
      3 ≤ (5 : Nat) ∧ ("b" : String) ≠ "a" ∧ ("c" : String) ≠ "a" ∧ ("c" : String) ≠ "b") ∧
    (readStore
      (appendFs ⟨10, 5, 10, fun _ => some 5⟩
        (appendFs ⟨10, 5, 10, fun _ => some 5⟩
          (appendFs ⟨10, 5, 10, fun _ => some 5⟩ .missing "conv"
            ⟨"a", "u", "x", "2024-01-01", "m", none⟩).1 "conv"
          ⟨"b", "u", "x", "2024-01-03", "m", none⟩).1 "conv"
        ⟨"c", "u", "x", "2024-01-02", "m", none⟩).1
      "conv").messages =
      [⟨"a", "u", "x", "2024-01-01", "m", none⟩, ⟨"c", "u", "x", "2024-01-02", "m", none⟩,
        ⟨"b", "u", "x", "2024-01-03", "m", none⟩] :=
  ⟨⟨by decide, by decide, by decide, by decide, by decide, by decide, by decide⟩,
    order_repair_behavior.2.2 ⟨10, 5, 10, fun _ => some 5⟩ "conv"
      ⟨"a", "u", "x", "2024-01-01", "m", none⟩ ⟨"b", "u", "x", "2024-01-03", "m", none⟩
      ⟨"c", "u", "x", "2024-01-02", "m", none⟩ (by decide) (by decide) (by decide)
      (by decide) (by decide) (by decide) (by decide) (by decide) (by decide)⟩

/-! Decimal representation roundtrip: `parseCursor` recovers the offset
that `read` encoded with JavaScript `String(offset + limit)`. -/

/-- Structural recursion characterizing `Nat.toDigits 10`: most
significant digit first. -/
def natChars (n : Nat) : List Char :=
  if n < 10 then [Nat.digitChar n]
  else natChars (n / 10) ++ [Nat.digitChar (n % 10)]
decreasing_by exact Nat.div_lt_self (by omega) (by omega)

theorem toDigitsCore_eq :
    ∀ (fuel n : Nat) (ds : List Char), n < fuel →
      Nat.toDigitsCore 10 fuel n ds = natChars n ++ ds := by
  intro fuel
  induction fuel with
  | zero => intro n ds h; omega
  | succ fuel ih =>
      intro n ds h
      rw [natChars]
      by_cases h10 : n < 10
      · have hdiv : n / 10 = 0 := by omega
        simp only [Nat.toDigitsCore, hdiv, if_true, h10, if_pos, dif_pos]
        have hmod : n % 10 = n := Nat.mod_eq_of_lt h10
        rw [hmod]
        rfl
      · have hdiv : ¬ n / 10 = 0 := by omega
        simp only [Nat.toDigitsCore, hdiv, if_false, h10, dif_neg, not_false_iff]
        rw [ih (n / 10) _ (by omega)]
        simp

theorem natRepr_data (n : Nat) : (Nat.repr n).data = natChars n := by
  show (Nat.toDigits 10 n).asString.data = natChars n
  rw [Nat.toDigits, toDigitsCore_eq (n + 1) n [] (Nat.lt_succ_self n), List.append_nil]
  rfl

theorem digitChar_spec (d : Nat) (h : d < 10) :
    (Nat.digitChar d).isDigit = true ∧ (Nat.digitChar d).toNat - 48 = d ∧
    (Nat.digitChar d).isWhitespace = false ∧
    Nat.digitChar d ≠ '-' ∧ Nat.digitChar d ≠ '+' := by
  interval_cases d <;> decide

theorem natChars_mem (n : Nat) : ∀ c ∈ natChars n, ∃ d, d < 10 ∧ c = Nat.digitChar d := by
  induction n using Nat.strong_induction_on with
  | _ n ih =>
      rw [natChars]
      split
      · next h =>
          intro c hc
          rw [List.mem_singleton] at hc
          exact ⟨n, h, hc⟩
      · next h =>
          intro c hc
          rw [List.mem_append] at hc
          rcases hc with hc | hc
          · exact ih (n / 10) (Nat.div_lt_self (by omega) (by omega)) c hc
          · rw [List.mem_singleton] at hc
            exact ⟨n % 10, Nat.mod_lt n (by omega), hc⟩

theorem natChars_ne_nil (n : Nat) : natChars n ≠ [] := by
  rw [natChars]
  split <;> simp

theorem natChars_foldl (n : Nat) :
    ∀ a : Nat,
      (natChars n).foldl (fun acc c => acc * 10 + (c.toNat - 48)) a =
        a * 10 ^ (natChars n).length + n := by
  induction n using Nat.strong_induction_on with
  | _ n ih =>
      intro a
      rw [natChars]
      split
      · next h =>
          simp only [List.foldl_cons, List.foldl_nil, List.length_cons, List.length_nil,
            (digitChar_spec n h).2.1, pow_one, zero_add, pow_succ, pow_zero, one_mul]
      · next h =>
          rw [List.foldl_append, ih (n / 10) (Nat.div_lt_self (by omega) (by omega)) a]
          simp only [List.foldl_cons, List.foldl_nil,
            (digitChar_spec (n % 10) (Nat.mod_lt n (by omega))).2.1,
            List.length_append, List.length_cons, List.length_nil, zero_add, pow_succ,
            ← mul_assoc]
          generalize a * 10 ^ (natChars (n / 10)).length = b
          omega

theorem takeWhile_all {p : Char → Bool} :
    ∀ l : List Char, (∀ c ∈ l, p c = true) → List.takeWhile p l = l := by
  intro l
  induction l with
  | nil => intro _; rfl
  | cons c t ih =>
      intro h
      rw [List.takeWhile_cons, if_pos (h c (List.mem_cons_self c t))]
      rw [ih fun x hx => h x (List.mem_cons_of_mem c hx)]

theorem jsParseIntCore_digits {cs : List Char} (hne : cs ≠ [])
    (hall : ∀ c ∈ cs, c.isDigit = true ∧ c ≠ '-' ∧ c ≠ '+') :
    jsParseIntCore cs = some (jsDigitsVal cs : Int) := by
  obtain ⟨c, t, rfl⟩ : ∃ c t, cs = c :: t := by
    cases cs with
    | nil => exact absurd rfl hne
    | cons c t => exact ⟨c, t, rfl⟩
  have hc := hall c (List.mem_cons_self c t)
  have hsign : ¬ ((c :: t).head? = some '-' ∨ (c :: t).head? = some '+') := by
    simp only [List.head?_cons, Option.some.injEq]
    push_neg
    exact ⟨hc.2.1, hc.2.2⟩
  have htake : List.takeWhile Char.isDigit (c :: t) = c :: t :=
    takeWhile_all _ fun x hx => (hall x hx).1
  have hneg : ¬ ((c :: t).head? = some '-') := fun h => hsign (Or.inl h)
  simp only [jsParseIntCore, if_neg hsign, htake]
  rw [if_neg (show ¬ (c :: t = []) by simp)]
  simp only [if_neg hneg]

theorem jsParseInt_natRepr (n : Nat) : jsParseInt (Nat.repr n) = some (n : Int) := by
  have hmem : ∀ c ∈ natChars n,
      c.isDigit = true ∧ c.isWhitespace = false ∧ c ≠ '-' ∧ c ≠ '+' := by
    intro c hc
    obtain ⟨d, hd, rfl⟩ := natChars_mem n c hc
    obtain ⟨h1, _, h3, h4, h5⟩ := digitChar_spec d hd
    exact ⟨h1, h3, h4, h5⟩
  obtain ⟨c, t, hct⟩ : ∃ c t, natChars n = c :: t := by
    cases h : natChars n with
    | nil => exact absurd h (natChars_ne_nil n)
    | cons c t => exact ⟨c, t, rfl⟩
  have hc := hmem c (by rw [hct]; exact List.mem_cons_self c t)
  have hdrop : (Nat.repr n).data.dropWhile Char.isWhitespace = natChars n := by
    rw [natRepr_data, hct, List.dropWhile_cons]
    simp [hc.2.1]
  have hval : jsDigitsVal (natChars n) = n := by
    unfold jsDigitsVal
    rw [natChars_foldl n 0, zero_mul, zero_add]
  unfold jsParseInt
  rw [hdrop, jsParseIntCore_digits (natChars_ne_nil n)
    (fun x hx => ⟨(hmem x hx).1, (hmem x hx).2.2.1, (hmem x hx).2.2.2⟩), hval]

theorem natRepr_ne_empty (n : Nat) : Nat.repr n ≠ "" := by
  intro h
  have hd : (Nat.repr n).data = [] := by rw [h]
  rw [natRepr_data] at hd
  exact natChars_ne_nil n hd

theorem parseCursor_natRepr (n : Nat) : parseCursor (some (Nat.repr n)) = n := by
  simp only [parseCursor, if_neg (natRepr_ne_empty n), jsParseInt_natRepr,
    if_pos (Int.natCast_nonneg n), Int.toNat_natCast]

/-! Pagination: the caller-side iteration of `read`, feeding back each
returned `nextCursor` until none is returned, with a fixed limit. -/

/-- One round of the pagination loop, with fuel to make the recursion
structural; `fuel` larger than the number of pages makes it exact. -/
def readPagesGo (messages : List StoredMessage) (limit : Option Int)
    (before after : Option String) (cursor : Option String) (fuel : Nat) :
    List StoredMessage :=
  match fuel with
  | 0 => []
  | fuel + 1 =>
      let r := readCore messages ⟨limit, cursor, before, after⟩
      match r.nextCursor with
      | none => r.messages
      | some c => r.messages ++ readPagesGo messages limit before after (some c) fuel

/-- The full pagination loop: first call without a cursor, then follow
`nextCursor` until exhaustion. -/
def readPages (messages : List StoredMessage) (limit : Option Int)
    (before after : Option String) : List StoredMessage :=
  readPagesGo messages limit before after none (messages.length + 1)

theorem rangeFiltered_cursor_free (messages : List StoredMessage)
    (l1 l2 : Option Int) (c1 c2 : Option String) (b a : Option String) :
    rangeFiltered messages ⟨l1, c1, b, a⟩ = rangeFiltered messages ⟨l2, c2, b, a⟩ := rfl

theorem intCast_toString (k : Nat) : toString ((k : Nat) : Int) = Nat.repr k := rfl

theorem readPagesGo_eq (messages : List StoredMessage) (limit : Option Int)
    (before after : Option String) :
    ∀ (fuel : Nat) (cursor : Option String),
      (rangeFiltered messages ⟨limit, cursor, before, after⟩).length ≤
        parseCursor cursor + fuel * (clampLimit limit).toNat →
      readPagesGo messages limit before after cursor fuel =
        (rangeFiltered messages ⟨limit, cursor, before, after⟩).reverse.drop
          (parseCursor cursor) := by
  intro fuel
  induction fuel with
  | zero =>
      intro cursor h
      rw [readPagesGo]
      symm
      apply List.drop_eq_nil_of_le
      rw [List.length_reverse]
      omega
  | succ fuel ih =>
      intro cursor h
      have hL1 : 1 ≤ clampLimit limit := clampLimit_pos limit
      have hLnat : ((clampLimit limit).toNat : Int) = clampLimit limit :=
        Int.toNat_of_nonneg (by omega)
      rw [readPagesGo]
      rw [readCore_def]
      have hrev : (rangeFiltered messages ⟨limit, cursor, before, after⟩).reverse.length =
          (rangeFiltered messages ⟨limit, cursor, before, after⟩).length :=
        List.length_reverse _
      have hmul : (fuel + 1) * (clampLimit limit).toNat =
          fuel * (clampLimit limit).toNat + (clampLimit limit).toNat := by ring
      by_cases hm : ((parseCursor cursor : Int) + clampLimit limit <
          ((rangeFiltered messages ⟨limit, cursor, before, after⟩).reverse.length : Int))
      · rw [if_pos hm]
        dsimp only
        have hcast : (parseCursor cursor : Int) + clampLimit limit =
            ((parseCursor cursor + (clampLimit limit).toNat : Nat) : Int) := by
          push_cast
          omega
        rw [hcast, intCast_toString]
        have hnext : parseCursor (some (Nat.repr
            (parseCursor cursor + (clampLimit limit).toNat))) =
            parseCursor cursor + (clampLimit limit).toNat := parseCursor_natRepr _
        rw [ih (some (Nat.repr (parseCursor cursor + (clampLimit limit).toNat)))
          (by rw [hnext, rangeFiltered_cursor_free messages limit limit _ cursor]; omega)]
        rw [rangeFiltered_cursor_free messages limit limit
          (some (Nat.repr (parseCursor cursor + (clampLimit limit).toNat))) cursor]
        rw [hnext, ← List.drop_drop, List.take_append_drop]
      · rw [if_neg hm]
        have hlen : ((rangeFiltered messages ⟨limit, cursor, before, after⟩).reverse.drop
            (parseCursor cursor)).length ≤ (clampLimit limit).toNat := by
          rw [List.length_drop, List.length_reverse]
          omega
        rw [List.take_of_length_le hlen]

/-- C5: iterating `read` with a fixed limit, feeding back each returned
cursor until none is returned, yields exactly the stored (range-filtered)
messages newest-first — the concatenation of all pages equals the whole
reversed filtered list, so there are no duplicates, no gaps, and the
total count is N. -/
theorem pagination_round_trip (messages : List StoredMessage) (limit : Option Int)
    (before after : Option String) :
    readPages messages limit before after =
      (rangeFiltered messages ⟨limit, none, before, after⟩).reverse ∧
    (readPages messages limit before after).length =
      (rangeFiltered messages ⟨limit, none, before, after⟩).length := by
  have hflen : (rangeFiltered messages ⟨limit, none, before, after⟩).length ≤
      messages.length := by
    unfold rangeFiltered
    dsimp only
    repeat' split
    all_goals
      first
      | exact le_refl _
      | exact List.length_filter_le _ _
      | exact le_trans (List.length_filter_le _ _) (List.length_filter_le _ _)
  have hL1 : 1 ≤ (clampLimit limit).toNat := by
    have := clampLimit_pos limit
    omega
  have hmain := readPagesGo_eq messages limit before after (messages.length + 1) none
    (by
      show (rangeFiltered messages ⟨limit, none, before, after⟩).length ≤
        0 + (messages.length + 1) * (clampLimit limit).toNat
      have h2 : messages.length + 1 ≤ (messages.length + 1) * (clampLimit limit).toNat :=
        Nat.le_mul_of_pos_right _ (by omega)
      omega)
  unfold readPages
  rw [hmain]
  have h0 : parseCursor none = 0 := rfl
  rw [h0, List.drop_zero]
  exact ⟨rfl, List.length_reverse _⟩

/-! Infrastructure for the idempotence claim: on an already-sorted list,
the stable sort of `list ++ [c]` inserts `c` after every element whose
timestamp is at most `c`'s. -/

/-- Insertion of `c` after the longest prefix of elements whose
timestamp is at most `c`'s — the position a stable ascending sort gives
the pushed (last) message when the rest of the list is sorted. -/
def insertAfter (c : StoredMessage) : List StoredMessage → List StoredMessage
  | [] => [c]
  | x :: t => if tsLe x c then x :: insertAfter c t else c :: x :: t

theorem tsLe_trans {a b c : StoredMessage} : tsLe a b → tsLe b c → tsLe a c :=
  fun h1 h2 => le_trans h1 h2

theorem tsLe_of_not {a b : StoredMessage} (h : ¬ tsLe a b) : tsLe b a :=
  le_of_not_le h

theorem sortByCreated_sorted_append {L : List StoredMessage} (c : StoredMessage)
    (hs : List.Sorted tsLe L) : sortByCreated (L ++ [c]) = insertAfter c L := by
  induction L with
  | nil => rfl
  | cons x t ih =>
      have hxt : ∀ y ∈ t, tsLe x y := List.rel_of_sorted_cons hs
      have ht : sortByCreated (t ++ [c]) = insertAfter c t := ih hs.of_cons
      show List.insertionSort tsLe ((x :: t) ++ [c]) = insertAfter c (x :: t)
      rw [List.cons_append, List.insertionSort,
        show List.insertionSort tsLe (t ++ [c]) = insertAfter c t from ht]
      by_cases hxc : tsLe x c
      · rw [show insertAfter c (x :: t) = x :: insertAfter c t from by
          rw [insertAfter, if_pos hxc]]
        cases t with
        | nil =>
            show List.orderedInsert tsLe x [c] = x :: [c]
            rw [List.orderedInsert, if_pos hxc]
        | cons y t' =>
            by_cases hyc : tsLe y c
            · rw [show insertAfter c (y :: t') = y :: insertAfter c t' from by
                rw [insertAfter, if_pos hyc]]
              rw [List.orderedInsert, if_pos (hxt y (List.mem_cons_self y t'))]
            · rw [show insertAfter c (y :: t') = c :: y :: t' from by
                rw [insertAfter, if_neg hyc]]
              rw [List.orderedInsert, if_pos hxc]
      · rw [show insertAfter c (x :: t) = c :: x :: t from by
          rw [insertAfter, if_neg hxc]]
        cases t with
        | nil =>
            show List.orderedInsert tsLe x [c] = c :: [x]
            rw [List.orderedInsert, if_neg hxc]
            rfl
        | cons y t' =>
            have hxy : tsLe x y := hxt y (List.mem_cons_self y t')
            have hyc : ¬ tsLe y c := fun h => hxc (tsLe_trans hxy h)
            rw [show insertAfter c (y :: t') = c :: y :: t' from by
              rw [insertAfter, if_neg hyc]]
            rw [List.orderedInsert, if_neg hxc, List.orderedInsert, if_pos hxy]

theorem mem_insertAfter {y c : StoredMessage} :
    ∀ {L : List StoredMessage}, y ∈ insertAfter c L → y = c ∨ y ∈ L := by
  intro L
  induction L with
  | nil =>
      intro h
      rw [show insertAfter c [] = [c] from rfl, List.mem_singleton] at h
      exact Or.inl h
  | cons x t ih =>
      intro h
      rw [insertAfter] at h
      by_cases hxc : tsLe x c
      · rw [if_pos hxc, List.mem_cons] at h
        rcases h with rfl | h
        · exact Or.inr (List.mem_cons_self _ _)
        · rcases ih h with h | h
          · exact Or.inl h
          · exact Or.inr (List.mem_cons_of_mem _ h)
      · rw [if_neg hxc, List.mem_cons] at h
        rcases h with rfl | h
        · exact Or.inl rfl
        · exact Or.inr h

theorem insertAfter_sorted {L : List StoredMessage} (hs : List.Sorted tsLe L)
    (c : StoredMessage) : List.Sorted tsLe (insertAfter c L) := by
  induction L with
  | nil => exact List.sorted_singleton c
  | cons x t ih =>
      rw [insertAfter]
      by_cases hxc : tsLe x c
      · rw [if_pos hxc, List.sorted_cons]
        refine ⟨fun y hy => ?_, ih hs.of_cons⟩
        rcases mem_insertAfter hy with rfl | hy'
        · exact hxc
        · exact List.rel_of_sorted_cons hs y hy'
      · rw [if_neg hxc, List.sorted_cons]
        refine ⟨fun y hy => ?_, hs⟩
        rcases List.mem_cons.mp hy with rfl | hy'
        · exact tsLe_of_not hxc
        · exact tsLe_trans (tsLe_of_not hxc) (List.rel_of_sorted_cons hs y hy')

theorem sorted_le_getLast :
    ∀ {L : List StoredMessage}, List.Sorted tsLe L →
      ∀ {x last : StoredMessage}, x ∈ L → L.getLast? = some last → tsLe x last := by
  intro L
  induction L with
  | nil => intro _ x last hx; cases hx
  | cons y t ih =>
      intro hs x last hx hl
      cases t with
      | nil =>
          rw [List.getLast?_singleton, Option.some.injEq] at hl
          rw [List.mem_singleton] at hx
          subst hl
          subst hx
          exact le_refl x.createdDateTime
      | cons z t' =>
          rw [List.getLast?_cons_cons] at hl
          rcases List.mem_cons.mp hx with rfl | hx'
          · exact List.rel_of_sorted_cons hs last (List.mem_of_getLast?_eq_some hl)
          · exact ih hs.of_cons hx' hl

theorem insertAfter_all_le {c : StoredMessage} :
    ∀ {L : List StoredMessage}, (∀ x ∈ L, tsLe x c) → insertAfter c L = L ++ [c] := by
  intro L
  induction L with
  | nil => intro _; rfl
  | cons x t ih =>
      intro hall
      rw [insertAfter, if_pos (hall x (List.mem_cons_self x t)),
        ih fun y hy => hall y (List.mem_cons_of_mem x hy), List.cons_append]

theorem orderRepair_eq_insertAfter {L : List StoredMessage} {c : StoredMessage}
    (hs : List.Sorted tsLe L) : orderRepair L c = insertAfter c L := by
  cases hL : L.getLast? with
  | none =>
      have h0 : L = [] := List.getLast?_eq_none_iff.mp hL
      subst h0
      rfl
  | some last =>
      by_cases hlt : c.createdDateTime < last.createdDateTime
      · rw [orderRepair_trigger hL hlt, sortByCreated_sorted_append c hs]
      · rw [orderRepair_no_trigger hL hlt]
        have hlc : tsLe last c := not_lt.mp hlt
        exact (insertAfter_all_le fun x hx =>
          tsLe_trans (sorted_le_getLast hs hx hL) hlc).symm

theorem insertAfter_split (c : StoredMessage) :
    ∀ {L : List StoredMessage}, List.Sorted tsLe L →
      ∃ P Q, insertAfter c L = P ++ c :: Q ∧ L = P ++ Q ∧ ∀ y ∈ Q, ¬ tsLe y c := by
  intro L
  induction L with
  | nil => intro _; exact ⟨[], [], rfl, rfl, fun y hy => absurd hy (List.not_mem_nil y)⟩
  | cons x t ih =>
      intro hs
      by_cases hxc : tsLe x c
      · obtain ⟨P, Q, h1, h2, h3⟩ := ih hs.of_cons
        refine ⟨x :: P, Q, ?_, ?_, h3⟩
        · rw [insertAfter, if_pos hxc, h1, List.cons_append]
        · rw [List.cons_append, ← h2]
      · refine ⟨[], x :: t, by rw [insertAfter, if_neg hxc]; rfl, rfl, fun y hy => ?_⟩
        rcases List.mem_cons.mp hy with rfl | hy'
        · exact hxc
        · exact fun hyc => hxc (tsLe_trans (List.rel_of_sorted_cons hs y hy') hyc)

theorem filter_insertAfter_of_neg {p : StoredMessage → Bool} {c : StoredMessage}
    (hc : p c = false) :
    ∀ {L : List StoredMessage}, (∀ x ∈ L, p x = true) → (insertAfter c L).filter p = L := by
  intro L
  induction L with
  | nil =>
      intro _
      show [c].filter p = []
      simp [hc]
  | cons x t ih =>
      intro hall
      rw [insertAfter]
      by_cases hxc : tsLe x c
      · rw [if_pos hxc, List.filter_cons, hall x (List.mem_cons_self x t)]
        simp only [if_true]
        rw [ih fun y hy => hall y (List.mem_cons_of_mem x hy)]
      · rw [if_neg hxc, List.filter_cons, hc]
        simp only [Bool.false_eq_true, if_false]
        exact List.filter_eq_self.mpr hall

theorem prune_sorted {env : Env} {L : List StoredMessage} (hs : List.Sorted tsLe L) :
    List.Sorted tsLe (prune env L) := by
  rw [prune_def]
  split
  · exact (hs.filter _).drop
  · exact hs.filter _

theorem prune_subset_fresh {env : Env} {L : List StoredMessage} {x : StoredMessage}
    (hx : x ∈ prune env L) : x ∈ L ∧ freshB env x = true := by
  rw [prune_def] at hx
  have hx' : x ∈ L.filter (freshB env) := by
    revert hx
    split
    · exact fun h => List.mem_of_mem_drop h
    · exact id
  exact ⟨(List.mem_filter.mp hx').1, (List.mem_filter.mp hx').2⟩

theorem appendCore_stable (env : Env) {L0 : List StoredMessage} {c : StoredMessage}
    (hs : List.Sorted tsLe L0) (hid : c.id ≠ "")
    (h1 : dedupHit (appendCore env L0 c) c = false) :
    appendCore env (appendCore env L0 c) c = appendCore env L0 c := by
  have hrep0 : orderRepair L0 c = insertAfter c L0 := orderRepair_eq_insertAfter hs
  obtain ⟨L1, hL1⟩ : ∃ L1, appendCore env L0 c = L1 := ⟨_, rfl⟩
  rw [hL1] at h1 ⊢
  have hL1eq : L1 = prune env (insertAfter c L0) := by
    rw [← hL1]
    unfold appendCore
    rw [hrep0]
  have hsL1 : List.Sorted tsLe L1 := by
    rw [hL1eq]
    exact prune_sorted (insertAfter_sorted hs c)
  have hfresh1 : ∀ x ∈ L1, freshB env x = true := by
    intro x hx
    rw [hL1eq] at hx
    exact (prune_subset_fresh hx).2
  have hlen1 : L1.length ≤ env.maxMessages := by
    rw [hL1eq]
    exact prune_length_le env _
  have hnotin : c ∉ L1 := by
    intro hmem
    unfold dedupHit at h1
    rw [bne_iff_ne.mpr hid, Bool.true_and, List.any_eq_false] at h1
    exact h1 c hmem (by simp)
  show appendCore env L1 c = L1
  unfold appendCore
  rw [orderRepair_eq_insertAfter hsL1]
  by_cases hf : freshB env c = true
  case neg =>
    have hfc : freshB env c = false := eq_false_of_ne_true hf
    rw [prune_def, filter_insertAfter_of_neg hfc hfresh1,
      if_neg (show ¬ (L1.length > env.maxMessages) by omega)]
  case pos =>
    obtain ⟨P, Q, hSplit, hL0, hQ⟩ := insertAfter_split c hs
    have hFform : (insertAfter c L0).filter (freshB env) =
        P.filter (freshB env) ++ c :: Q.filter (freshB env) := by
      rw [hSplit, List.filter_append, List.filter_cons, hf]
      simp only [if_true]
    have hL1eq2 : L1 = prune env (insertAfter c L0) := hL1eq
    rw [prune_def, hFform] at hL1eq2
    by_cases hcap : (P.filter (freshB env) ++ c :: Q.filter (freshB env)).length >
        env.maxMessages
    case neg =>
      exfalso
      apply hnotin
      rw [hL1eq2, if_neg hcap]
      exact List.mem_append_right _ (List.mem_cons_self _ _)
    case pos =>
      have hL1F : L1 = (P.filter (freshB env) ++ c :: Q.filter (freshB env)).drop
          ((P.filter (freshB env) ++ c :: Q.filter (freshB env)).length -
            env.maxMessages) := by
        rw [hL1eq2, if_pos hcap]
      have hlenL1 : L1.length = env.maxMessages := by
        rw [hL1F, List.length_drop]
        omega
      have hPfk : (P.filter (freshB env)).length <
          (P.filter (freshB env) ++ c :: Q.filter (freshB env)).length -
            env.maxMessages := by
        by_contra hle
        push_neg at hle
        apply hnotin
        rw [hL1F, List.drop_append_of_le_length hle]
        exact List.mem_append_right _ (List.mem_cons_self _ _)
      have hQform : L1 = (Q.filter (freshB env)).drop
          (((P.filter (freshB env) ++ c :: Q.filter (freshB env)).length -
            env.maxMessages) - (P.filter (freshB env)).length - 1) := by
        rw [hL1F, List.drop_append_eq_append_drop,
          List.drop_eq_nil_of_le (le_of_lt hPfk), List.nil_append]
        have hsplit1 : ((P.filter (freshB env) ++ c :: Q.filter (freshB env)).length -
            env.maxMessages) - (P.filter (freshB env)).length =
            (((P.filter (freshB env) ++ c :: Q.filter (freshB env)).length -
              env.maxMessages) - (P.filter (freshB env)).length - 1) + 1 := by
          omega
        rw [hsplit1, List.drop_succ_cons]
        congr 1
      have hgt : ∀ y ∈ L1, ¬ tsLe y c := by
        intro y hy
        rw [hQform] at hy
        exact hQ y (List.mem_of_mem_filter (List.mem_of_mem_drop hy))
      cases hL1c : L1 with
      | nil =>
          have hmax0 : env.maxMessages = 0 := by
            rw [hL1c] at hlenL1
            simpa using hlenL1.symm
          show prune env (insertAfter c []) = []
          rw [show insertAfter c [] = [c] from rfl, prune_def]
          have hfil : ([c] : List StoredMessage).filter (freshB env) = [c] := by simp [hf]
          rw [hfil, if_pos (by simp [hmax0]), hmax0]
          rfl
      | cons x t =>
          rw [hL1c] at hgt hfresh1 hlenL1
          have hcons : insertAfter c (x :: t) = c :: x :: t := by
            rw [insertAfter, if_neg (hgt x (List.mem_cons_self x t))]
          rw [hcons, prune_def]
          have hfilter : (c :: x :: t).filter (freshB env) = c :: x :: t :=
            List.filter_eq_self.mpr fun a ha => by
              rcases List.mem_cons.mp ha with rfl | ha'
              · exact hf
              · exact hfresh1 a ha'
          rw [hfilter]
          have hlen2 : (c :: x :: t).length > env.maxMessages := by
            simp only [List.length_cons] at hlenL1 ⊢
            omega
          rw [if_pos hlen2]
          have hone : (c :: x :: t).length - env.maxMessages = 1 := by
            simp only [List.length_cons] at hlenL1 ⊢
            omega
          rw [hone]
          rfl

/-- C1: append is idempotent for messages with a non-empty id — on any
stored record whose message list is sorted by `createdDateTime` (the
invariant every append maintains, as the first conjunct shows), a second
delivery of the same message leaves the persisted file exactly as after
the first append; the model is total, so the duplicate append returns
without error. -/
theorem append_idempotent :
    (∀ (env : Env) (d : DiskFile) (cid : String) (c : StoredMessage),
      List.Sorted tsLe (readStore d cid).messages →
      List.Sorted tsLe (readStore (appendFs env d cid c).1 cid).messages) ∧
    ∀ (env : Env) (d : DiskFile) (cid : String) (c : StoredMessage),
      c.id ≠ "" →
      List.Sorted tsLe (readStore d cid).messages →
      (appendFs env (appendFs env d cid c).1 cid c).1 = (appendFs env d cid c).1 := by
  constructor
  · intro env d cid c hs
    rw [appendFs_def]
    split
    · exact hs
    · rw [readStore_file_valid]
      show List.Sorted tsLe (appendCore env (readStore d cid).messages c)
      unfold appendCore
      rw [orderRepair_eq_insertAfter hs]
      exact prune_sorted (insertAfter_sorted hs c)
  · intro env d cid c hid hs
    by_cases h0 : dedupHit (readStore d cid).messages c = true
    · have e1 : appendFs env d cid c = (d, 0) := by rw [appendFs_def, if_pos h0]
      rw [e1]
      show (appendFs env d cid c).1 = d
      rw [e1]
    · have e1 : appendFs env d cid c =
          (.file ⟨1, (readStore d cid).conversationId,
            some (appendCore env (readStore d cid).messages c)⟩, 1) := by
        rw [appendFs_def, if_neg h0]
      rw [e1]
      show (appendFs env (.file ⟨1, (readStore d cid).conversationId,
        some (appendCore env (readStore d cid).messages c)⟩) cid c).1 = _
      rw [appendFs_def, readStore_file_valid]
      by_cases h1 : dedupHit (appendCore env (readStore d cid).messages c) c = true
      · rw [if_pos (show dedupHit (⟨1, (readStore d cid).conversationId,
          appendCore env (readStore d cid).messages c⟩ : StoreData).messages c = true from h1)]
      · rw [if_neg (show ¬ dedupHit (⟨1, (readStore d cid).conversationId,
          appendCore env (readStore d cid).messages c⟩ : StoreData).messages c = true from h1)]
        have hstable := appendCore_stable env hs hid (eq_false_of_ne_true h1)
        show (DiskFile.file ⟨1, (readStore d cid).conversationId,
          some (appendCore env (appendCore env (readStore d cid).messages c) c)⟩ : DiskFile) = _
        rw [hstable]

theorem append_idempotent_witness :
    (("b" : String) ≠ "") ∧
    List.Sorted tsLe (readStore
      (.file ⟨1, "conv", some [⟨"a", "u", "x", "2024-01-01", "m", none⟩]⟩) "conv").messages ∧
    (appendFs ⟨10, 5, 10, fun _ => some 5⟩
      (appendFs ⟨10, 5, 10, fun _ => some 5⟩
        (.file ⟨1, "conv", some [⟨"a", "u", "x", "2024-01-01", "m", none⟩]⟩) "conv"
        ⟨"b", "u", "y", "2024-01-02", "m", none⟩).1 "conv"
      ⟨"b", "u", "y", "2024-01-02", "m", none⟩).1 =
      (appendFs ⟨10, 5, 10, fun _ => some 5⟩
        (.file ⟨1, "conv", some [⟨"a", "u", "x", "2024-01-01", "m", none⟩]⟩) "conv"
        ⟨"b", "u", "y", "2024-01-02", "m", none⟩).1 :=
  ⟨by decide, by decide,
    append_idempotent.2 ⟨10, 5, 10, fun _ => some 5⟩
      (.file ⟨1, "conv", some [⟨"a", "u", "x", "2024-01-01", "m", none⟩]⟩) "conv"
      ⟨"b", "u", "y", "2024-01-02", "m", none⟩ (by decide) (by decide)⟩

/-! Default-conversation resolution (C8). -/

/-- Modelled from the spec: select the entry with the greatest
last-modified time, ties broken by the first encountered. -/
def specSelect : List (String × Int) → Option (String × Int)
  | [] => none
  | e :: rest =>
      match specSelect rest with
      | none => some e
      | some b => if b.2 > e.2 then some b else some e

/-- Collect the stat results of all entries; `none` when any stat fails
(the exception the code's loop would hit). -/
def statAll : List DirEntry → Option (List (String × Int))
  | [] => some []
  | e :: rest =>
      match e.mtime, statAll rest with
      | some m, some l => some ((e.name, m) :: l)
      | _, _ => none

theorem statAll_nil_inv : ∀ {entries : List DirEntry},
    statAll entries = some [] → entries = [] := by
  intro entries h
  cases entries with
  | nil => rfl
  | cons e rest =>
      exfalso
      rw [statAll] at h
      cases he : e.mtime <;> rw [he] at h
      · exact Option.noConfusion h
      · cases hr : statAll rest <;> rw [hr] at h
        · exact Option.noConfusion h
        · next m l =>
            have h2 : some ((e.name, m) :: l) = some [] := h
            exact absurd (Option.some_injective _ h2) (List.cons_ne_nil _ _)

theorem specSelect_ne_none : ∀ {l : List (String × Int)} {e : String × Int},
    specSelect (e :: l) = none → False := by
  intro l e h
  rw [specSelect] at h
  cases hs : specSelect l with
  | none =>
      rw [hs] at h
      exact Option.noConfusion h
  | some b =>
      rw [hs] at h
      have h2 : (if b.2 > e.2 then some b else some e) = none := h
      split at h2 <;> exact Option.noConfusion h2

theorem pickBestLoop_stat_fail :
    ∀ {entries : List DirEntry} (b0 : String) (m0 : Int),
      (∃ e ∈ entries, e.mtime = none) → pickBestLoop entries b0 m0 = none := by
  intro entries
  induction entries with
  | nil =>
      intro b0 m0 h
      obtain ⟨e, he, _⟩ := h
      cases he
  | cons e rest ih =>
      intro b0 m0 h
      rw [pickBestLoop]
      cases he : e.mtime with
      | none => rfl
      | some m =>
          obtain ⟨x, hx, hxm⟩ := h
          rcases List.mem_cons.mp hx with rfl | hx'
          · rw [he] at hxm
            exact Option.noConfusion hxm
          · show (if m > m0 then pickBestLoop rest e.name m
              else pickBestLoop rest b0 m0) = none
            split
            · exact ih _ _ ⟨x, hx', hxm⟩
            · exact ih _ _ ⟨x, hx', hxm⟩

theorem pickBestLoop_of_le :
    ∀ {entries : List DirEntry} {l : List (String × Int)} {b : String × Int}
      (b0 : String) (m0 : Int),
      statAll entries = some l → specSelect l = some b → b.2 ≤ m0 →
      pickBestLoop entries b0 m0 = some b0 := by
  intro entries
  induction entries with
  | nil => intro l b b0 m0 _ _ _; rfl
  | cons e rest ih =>
      intro l b b0 m0 hstat hsel hle
      rw [statAll] at hstat
      cases he : e.mtime <;> rw [he] at hstat
      · exact Option.noConfusion hstat
      · next m =>
          cases hr : statAll rest <;> rw [hr] at hstat
          · exact Option.noConfusion hstat
          · next l' =>
              have hstat2 : some ((e.name, m) :: l') = some l := hstat
              have hl : l = (e.name, m) :: l' := (Option.some_injective _ hstat2).symm
              subst hl
              rw [specSelect] at hsel
              rw [pickBestLoop, he]
              show (if m > m0 then pickBestLoop rest e.name m
                else pickBestLoop rest b0 m0) = some b0
              cases hs' : specSelect l' <;> rw [hs'] at hsel
              · have hb : b = (e.name, m) := (Option.some_injective _ hsel).symm
                subst hb
                have hm : ¬ (m > m0) := by
                  have : m ≤ m0 := hle
                  omega
                rw [if_neg hm]
                have hl' : l' = [] := by
                  cases hll : l' with
                  | nil => rfl
                  | cons p ps =>
                      rw [hll] at hs'
                      exact absurd hs' (fun hh => specSelect_ne_none hh)
                subst hl'
                have hrest : rest = [] := statAll_nil_inv hr
                subst hrest
                rfl
              · next b' =>
                  have hsel2 : (if b'.2 > m then some b' else some (e.name, m)) =
                      some b := hsel
                  by_cases hgt : b'.2 > m
                  · rw [if_pos hgt] at hsel2
                    have hb : b = b' := (Option.some_injective _ hsel2).symm
                    subst hb
                    rw [if_neg (show ¬ (m > m0) by omega)]
                    exact ih b0 m0 hr hs' hle
                  · rw [if_neg hgt] at hsel2
                    have hb : b = (e.name, m) := (Option.some_injective _ hsel2).symm
                    subst hb
                    rw [if_neg (show ¬ (m > m0) by
                      have hmm : m ≤ m0 := hle
                      omega)]
                    exact ih b0 m0 hr hs' (by
                      simp only [not_lt] at hgt
                      have hmm : m ≤ m0 := hle
                      omega)

theorem pickBestLoop_of_lt :
    ∀ {entries : List DirEntry} {l : List (String × Int)} {b : String × Int}
      (b0 : String) (m0 : Int),
      statAll entries = some l → specSelect l = some b → m0 < b.2 →
      pickBestLoop entries b0 m0 = some b.1 := by
  intro entries
  induction entries with
  | nil =>
      intro l b b0 m0 hstat hsel _
      have hl : l = [] := (Option.some_injective _ hstat).symm
      subst hl
      exact absurd hsel (fun h => Option.noConfusion h)
  | cons e rest ih =>
      intro l b b0 m0 hstat hsel hlt
      rw [statAll] at hstat
      cases he : e.mtime <;> rw [he] at hstat
      · exact Option.noConfusion hstat
      · next m =>
          cases hr : statAll rest <;> rw [hr] at hstat
          · exact Option.noConfusion hstat
          · next l' =>
              have hstat2 : some ((e.name, m) :: l') = some l := hstat
              have hl : l = (e.name, m) :: l' := (Option.some_injective _ hstat2).symm
              subst hl
              rw [specSelect] at hsel
              rw [pickBestLoop, he]
              show (if m > m0 then pickBestLoop rest e.name m
                else pickBestLoop rest b0 m0) = some b.1
              cases hs' : specSelect l' <;> rw [hs'] at hsel
              · have hb : b = (e.name, m) := (Option.some_injective _ hsel).symm
                subst hb
                rw [if_pos (show m > m0 from hlt)]
                have hl' : l' = [] := by
                  cases hll : l' with
                  | nil => rfl
                  | cons p ps =>
                      rw [hll] at hs'
                      exact absurd hs' (fun hh => specSelect_ne_none hh)
                subst hl'
                have hrest : rest = [] := statAll_nil_inv hr
                subst hrest
                rfl
              · next b' =>
                  have hsel2 : (if b'.2 > m then some b' else some (e.name, m)) =
                      some b := hsel
                  by_cases hgt : b'.2 > m
                  · rw [if_pos hgt] at hsel2
                    have hb : b = b' := (Option.some_injective _ hsel2).symm
                    subst hb
                    by_cases hm0 : m > m0
                    · rw [if_pos hm0]
                      exact ih e.name m hr hs' hgt
                    · rw [if_neg hm0]
                      exact ih b0 m0 hr hs' hlt
                  · rw [if_neg hgt] at hsel2
                    have hb : b = (e.name, m) := (Option.some_injective _ hsel2).symm
                    subst hb
                    rw [if_pos (show m > m0 from hlt)]
                    exact pickBestLoop_of_le e.name m hr hs'
                      (by simp only [not_lt] at hgt; omega)

theorem readDefaultFs_eq_after_list {dir : DirState} {files : List DirEntry}
    (hl : dir.listing = some files) (opts : ReadOpts) :
    readDefaultFs dir opts =
      match files.filter (fun f => isHistoryName f.name) with
      | [] => emptyResult
      | h0 :: _ =>
          match pickBestLoop (files.filter (fun f => isHistoryName f.name)) h0.name 0 with
          | none => emptyResult
          | some best =>
              if (readJsonFileModel (dir.content best) (emptyStore "")).version = 1 then
                match (readJsonFileModel (dir.content best) (emptyStore "")).messages with
                | some _ => readFsByCid dir
                    (readJsonFileModel (dir.content best) (emptyStore "")).conversationId opts
                | none => emptyResult
              else emptyResult := by
  unfold readDefaultFs
  rw [hl]

/-- C8 counterexample: with two matching history files whose mtimes are
both negative (files stamped before the epoch — valid `mtimeMs` values),
`readDefault` returns the history of the file the loop's `bestMtime = 0`
initialization leaves in place (the first), not the file with the
greatest last-modified time that the spec's selection rule picks. -/
theorem readDefault_mtime_counterexample :
    readDefaultFs
      ⟨some [⟨"msteams-history-a.json", some (-2)⟩, ⟨"msteams-history-b.json", some (-1)⟩],
        fun n =>
          if n = "msteams-history-a.json" then
            .file ⟨1, "A", some [⟨"a1", "u", "from-a", "t", "m", none⟩]⟩
          else if n = "msteams-history-b.json" then
            .file ⟨1, "B", some [⟨"b1", "u", "from-b", "t", "m", none⟩]⟩
          else .missing,
        fun cid => if cid = "A" then "a" else "b"⟩
      ⟨none, none, none, none⟩ =
      ⟨[⟨"a1", "u", "from-a", "t", "m", none⟩], none⟩ ∧
    specSelect [("msteams-history-a.json", -2), ("msteams-history-b.json", -1)] =
      some ("msteams-history-b.json", -1) ∧
    readFsByCid
      ⟨some [⟨"msteams-history-a.json", some (-2)⟩, ⟨"msteams-history-b.json", some (-1)⟩],
        fun n =>
          if n = "msteams-history-a.json" then
            .file ⟨1, "A", some [⟨"a1", "u", "from-a", "t", "m", none⟩]⟩
          else if n = "msteams-history-b.json" then
            .file ⟨1, "B", some [⟨"b1", "u", "from-b", "t", "m", none⟩]⟩
          else .missing,
        fun cid => if cid = "A" then "a" else "b"⟩
      "B" ⟨none, none, none, none⟩ =
      ⟨[⟨"b1", "u", "from-b", "t", "m", none⟩], none⟩ ∧
    (⟨[⟨"a1", "u", "from-a", "t", "m", none⟩], none⟩ : ReadResult) ≠
      ⟨[⟨"b1", "u", "from-b", "t", "m", none⟩], none⟩ := by
  refine ⟨by decide, by decide, by decide, by decide⟩

/-- C8 (amended): `readDefault` returns an empty result when the
directory listing fails, when no history files match, or when any stat
fails (the selection loop aborts); when all stats succeed the loop —
seeded with `bestMtime = 0` — returns the first entry achieving the
greatest mtime whenever that greatest mtime is positive, and falls back
to the first matching file when every mtime is at most 0 (for
non-negative mtimes this is exactly the spec's greatest-mtime rule);
the selected record is validated (wrong version or non-sequence
messages yield an empty result) and otherwise `read` is invoked with the
embedded conversation id and the original options. -/
theorem readDefault_behavior :
    (∀ (content : String → DiskFile) (hashFn : String → String) (opts : ReadOpts),
      readDefaultFs ⟨none, content, hashFn⟩ opts = emptyResult) ∧
    (∀ (dir : DirState) (opts : ReadOpts) (files : List DirEntry),
      dir.listing = some files →
      files.filter (fun f => isHistoryName f.name) = [] →
      readDefaultFs dir opts = emptyResult) ∧
    (∀ (entries : List DirEntry) (b0 : String) (m0 : Int),
      (∃ e ∈ entries, e.mtime = none) → pickBestLoop entries b0 m0 = none) ∧
    (∀ (dir : DirState) (opts : ReadOpts) (files : List DirEntry) (h0 : DirEntry)
        (t : List DirEntry),
      dir.listing = some files →
      files.filter (fun f => isHistoryName f.name) = h0 :: t →
      pickBestLoop (h0 :: t) h0.name 0 = none →
      readDefaultFs dir opts = emptyResult) ∧
    (∀ (entries : List DirEntry) (l : List (String × Int)) (b : String × Int) (b0 : String),
      statAll entries = some l → specSelect l = some b → 0 < b.2 →
      pickBestLoop entries b0 0 = some b.1) ∧
    (∀ (entries : List DirEntry) (l : List (String × Int)) (b : String × Int) (b0 : String),
      statAll entries = some l → specSelect l = some b → b.2 ≤ 0 →
      pickBestLoop entries b0 0 = some b0) ∧
    ∀ (dir : DirState) (opts : ReadOpts) (files : List DirEntry) (h0 : DirEntry)
        (t : List DirEntry) (best : String) (r : RawRecord),
      dir.listing = some files →
      files.filter (fun f => isHistoryName f.name) = h0 :: t →
      pickBestLoop (h0 :: t) h0.name 0 = some best →
      dir.content best = .file r →
      (r.version ≠ 1 → readDefaultFs dir opts = emptyResult) ∧
      (r.messages = none → readDefaultFs dir opts = emptyResult) ∧
      (∀ ms, r.version = 1 → r.messages = some ms →
        readDefaultFs dir opts = readFsByCid dir r.conversationId opts) := by
  refine ⟨fun content hashFn opts => rfl,
    fun dir opts files hl hf => ?_,
    fun entries b0 m0 h => pickBestLoop_stat_fail b0 m0 h,
    fun dir opts files h0 t hl hf hp => ?_,
    fun entries l b b0 hstat hsel hpos => pickBestLoop_of_lt b0 0 hstat hsel hpos,
    fun entries l b b0 hstat hsel hle => pickBestLoop_of_le b0 0 hstat hsel hle,
    fun dir opts files h0 t best r hl hf hp hc => ?_⟩
  · rw [readDefaultFs_eq_after_list hl, hf]
  · have hred := readDefaultFs_eq_after_list hl opts
    rw [hf] at hred
    have hred2 : readDefaultFs dir opts =
        match pickBestLoop (h0 :: t) h0.name 0 with
        | none => emptyResult
        | some best =>
            if (readJsonFileModel (dir.content best) (emptyStore "")).version = 1 then
              match (readJsonFileModel (dir.content best) (emptyStore "")).messages with
              | some _ => readFsByCid dir
                  (readJsonFileModel (dir.content best) (emptyStore "")).conversationId opts
              | none => emptyResult
            else emptyResult := hred
    rw [hp] at hred2
    exact hred2
  · have hred := readDefaultFs_eq_after_list hl opts
    rw [hf] at hred
    have hred2 : readDefaultFs dir opts =
        match pickBestLoop (h0 :: t) h0.name 0 with
        | none => emptyResult
        | some best =>
            if (readJsonFileModel (dir.content best) (emptyStore "")).version = 1 then
              match (readJsonFileModel (dir.content best) (emptyStore "")).messages with
              | some _ => readFsByCid dir
                  (readJsonFileModel (dir.content best) (emptyStore "")).conversationId opts
              | none => emptyResult
            else emptyResult := hred
    rw [hp] at hred2
    have hred2b : readDefaultFs dir opts =
        if (readJsonFileModel (dir.content best) (emptyStore "")).version = 1 then
          match (readJsonFileModel (dir.content best) (emptyStore "")).messages with
          | some _ => readFsByCid dir
              (readJsonFileModel (dir.content best) (emptyStore "")).conversationId opts
          | none => emptyResult
        else emptyResult := hred2
    rw [hc] at hred2b
    have hred3 : readDefaultFs dir opts =
        if r.version = 1 then
          match r.messages with
          | some _ => readFsByCid dir r.conversationId opts
          | none => emptyResult
        else emptyResult := hred2b
    refine ⟨fun hv => ?_, fun hm => ?_, fun ms hv hm => ?_⟩
    · rw [hred3, if_neg hv]
    · rw [hred3, hm]
      split <;> rfl
    · rw [hred3, hm, if_pos hv]

theorem readDefault_behavior_witness :
    statAll [⟨"f1", some 3⟩, ⟨"f2", some 5⟩] = some [("f1", 3), ("f2", 5)] ∧
    specSelect [("f1", 3), ("f2", 5)] = some ("f2", 5) ∧
    (0 : Int) < 5 ∧
    pickBestLoop [⟨"f1", some 3⟩, ⟨"f2", some 5⟩] "f1" 0 = some "f2" ∧
    pickBestLoop [⟨"g", none⟩] "g" 0 = none :=
  ⟨by decide, by decide, by decide,
    readDefault_behavior.2.2.2.2.1 [⟨"f1", some 3⟩, ⟨"f2", some 5⟩]
      [("f1", 3), ("f2", 5)] ("f2", 5) "f1" (by decide) (by decide) (by decide),
    readDefault_behavior.2.2.1 [⟨"g", none⟩] "g" 0 ⟨⟨"g", none⟩, by decide, rfl⟩⟩

end OpenClaw
